import Mathlib

/-!
Verification of the simple-memory plugin's log-structured memory store.

The development shallowly embeds the TypeScript source of
`src/index.ts` (record codec, memory store operations, search/ranking,
logger event construction) as executable Lean definitions over
`List Char` strings, and proves or refutes the frozen claims about it.

Conventions of the embedding:
- JavaScript strings are modelled as `List Char` (`Str`).
- The memory directory is modelled as an association list from file
  name to file content (`FS`), in filesystem enumeration order; the
  constant `memoryDir` path prefix of the source is dropped, so file
  paths are file names relative to the store root.
- `new Date().toISOString()` values are passed in as explicit
  parameters (the store never inspects them).
- Regex matching in `parseLine` is embedded by direct implementations
  of the exact ECMAScript matching behaviour of each regex, documented
  at each definition.
- The flat JSONL logger (`appendJsonLog`) writes one file per day under
  the separate logger directory and never reads or writes the memory
  store's files; its fire-and-forget calls inside the memory tools are
  therefore outside the store state modelled here, while the event
  object it serializes (`buildLoggerEvent`) and the session-tree writer
  are modelled below.
-/

set_option maxRecDepth 4000

abbrev Str := List Char

/-- JavaScript whitespace class `\s` restricted to the characters that can
occur here (space, tab, newline, carriage return, vertical tab, form feed). -/
def isSpaceC (c : Char) : Bool :=
  c = ' ' ∨ c = '\t' ∨ c = '\n' ∨ c = '\r' ∨ c = '\x0b' ∨ c = '\x0c'

/-- `text.split(sep)` for a one-character separator, ECMAScript semantics:
splitting `""` gives `[""]`, separators at the ends give empty fields. -/
def splitOnC (sep : Char) : Str → List Str
  | [] => [[]]
  | c :: cs =>
    if c = sep then [] :: splitOnC sep cs
    else
      match splitOnC sep cs with
      | [] => [[c]]
      | h :: t => (c :: h) :: t

/-- `parts.join(sep)` for a one-character separator, inverse of
`splitOnC`. -/
def joinWithC (sep : Char) : List Str → Str
  | [] => []
  | [p] => p
  | p :: q :: rest => p ++ sep :: joinWithC sep (q :: rest)

/-- `text.trim()`: strip whitespace from both ends. -/
def trimStr (s : Str) : Str :=
  ((s.dropWhile isSpaceC).reverse.dropWhile isSpaceC).reverse

/-- `hay.includes(needle)`: contiguous-substring test. -/
def containsSub (needle : Str) : Str → Bool
  | [] => needle.isEmpty
  | c :: cs => needle.isPrefixOf (c :: cs) || containsSub needle cs

/-- `s.toLowerCase()` (ASCII range, which is all the source exercises). -/
def lowerStr (s : Str) : Str := s.map Char.toLower

/-- First match of the regex `key=([^\s]+)` (for `key` one of `ts`, `type`,
`scope`, `issue`, `tags`): scan left to right for a position where the
literal `key=` matches and is followed by at least one non-whitespace
character; the capture is the maximal non-whitespace run after `key=`.
If the literal matches but is followed by whitespace or the end of the
line, the ECMAScript engine advances one character and keeps scanning,
which this recursion mirrors. -/
def findKeyToken (key : Str) : Str → Option Str
  | [] => none
  | c :: cs =>
    if key.isPrefixOf (c :: cs) then
      match ((c :: cs).drop key.length).takeWhile (fun x => ¬ isSpaceC x) with
      | [] => findKeyToken key cs
      | d :: ds => some (d :: ds)
    else findKeyToken key cs

/-- Continuation of the regex `content="([^"]*(?:\\"[^"]*)*)"` after the
literal `content="` has matched, with exact ECMAScript backtracking
semantics. The greedy `[^"]*` consumes every character up to the first
`"` (consuming any backslash before it); at that point the group
`(?:\\"[^"]*)*` cannot start (its first token `\\"` needs a backslash
where the current character is `"` or the line has ended), so it matches
zero times and the closing `"` of the regex is matched by the *first*
quote after the opening one. If the rest of the line has no quote at
all, backtracking `[^"]*` to shorter prefixes never helps (every later
position is a non-quote, so `\\"` can never match) and the regex fails
at this start position. Hence: capture everything up to the first
quote if one exists, otherwise fail. The escaped-quote alternative of
the source regex is unreachable. -/
def contentBody (cs : Str) : Option Str :=
  match cs.dropWhile (fun x => x ≠ '"') with
  | '"' :: _ => some (cs.takeWhile (fun x => x ≠ '"'))
  | _ => none

/-- First match of `content="([^"]*(?:\\"[^"]*)*)"`: scan for the literal
`content="`; where it matches, run `contentBody` on the rest; on failure
the engine advances one character and keeps scanning. -/
def findContentToken : Str → Option Str
  | [] => none
  | c :: cs =>
    if ("content=\"".toList).isPrefixOf (c :: cs) then
      match contentBody ((c :: cs).drop 9) with
      | some cap => some cap
      | none => findContentToken cs
    else findContentToken cs

/-- `content.replace(/"/g, '\\"')`: escape on encode. -/
def escQ : Str → Str
  | [] => []
  | '"' :: rest => '\\' :: '"' :: escQ rest
  | c :: rest => c :: escQ rest

/-- `captured.replace(/\\"/g, '"')`: unescape on decode (left-to-right,
non-overlapping, no rescanning of the replacement). -/
def unescQ : Str → Str
  | [] => []
  | '\\' :: '"' :: rest => '"' :: unescQ rest
  | c :: rest => c :: unescQ rest

/-- The in-memory record (`interface Memory`). -/
structure Memory where
  ts : Str
  type : Str
  scope : Str
  content : Str
  issue : Option Str
  tags : Option (List Str)
deriving DecidableEq, Repr

/-- `parseLine`: per-field independent pattern extraction; returns `none`
unless the `ts`, `type` and `scope` captures are all present (the
captures of `[^\s]+` are never empty, so the additional JavaScript
falsiness check on the captured strings never fires). The content
capture is unescaped and defaults to the empty string; `tags` is the
comma-split of its capture. -/
def parseLine (l : Str) : Option Memory :=
  match findKeyToken ("ts=".toList) l, findKeyToken ("type=".toList) l,
        findKeyToken ("scope=".toList) l with
  | some ts, some ty, some sc =>
    some
      { ts := ts, type := ty, scope := sc
        content := ((findContentToken l).map unescQ).getD []
        issue := findKeyToken ("issue=".toList) l
        tags := (findKeyToken ("tags=".toList) l).map (splitOnC ',') }
  | _, _, _ => none

/-- The ` issue=...` fragment of an encoded line: emitted only when the
issue is present and non-empty (JavaScript truthiness of `args.issue`). -/
def issueTok : Option Str → Str
  | some i => if i = [] then [] else " issue=".toList ++ i
  | none => []

/-- The ` tags=...` fragment of an encoded line: emitted only when the tag
list is present and non-empty (`args.tags?.length`), comma-joined. -/
def tagsTok : Option (List Str) → Str
  | some ts => if ts = [] then [] else " tags=".toList ++ List.intercalate (",".toList) ts
  | none => []

/-- One encoded record line, without the trailing newline: the template of
`remember.execute` (and of the rewritten line in `update.execute`):
`ts=${ts} type=${type} scope=${scope} content="${escaped}"${issue}${tags}`. -/
def mkLine (ts ty sc content : Str) (issue : Option Str) (tags : Option (List Str)) : Str :=
  "ts=".toList ++ ts ++ " type=".toList ++ ty ++ " scope=".toList ++ sc ++
    " content=\"".toList ++ escQ content ++ "\"".toList ++ issueTok issue ++ tagsTok tags

/-- Re-encode a decoded record with `mkLine` (the encoder applied to the
record's own fields). -/
def encodeMemory (m : Memory) : Str :=
  mkLine m.ts m.type m.scope m.content m.issue m.tags

/-! ## File-system model and scanning -/

/-- The memory directory: an association list from file name to file
content, in filesystem enumeration order. -/
abbrev FS := List (Str × Str)

/-- Generic association lookup: the content of the first entry with the
given key (reading a file). -/
def alookup {α : Type} (l : List (Str × α)) (k : Str) : Option α :=
  (l.find? (fun e => e.1 = k)).map (fun e => e.2)

/-- Generic write-through: replace the value of an existing key in place,
or add the entry at the end (creating a file appends it to the
enumeration order). -/
def aupsert {α : Type} (l : List (Str × α)) (k : Str) (v : α) : List (Str × α) :=
  if l.any (fun e => e.1 = k) then
    l.map (fun e => if e.1 = k then (k, v) else e)
  else l ++ [(k, v)]

def fsLookup (fs : FS) (name : Str) : Option Str := alookup fs name

def fsWrite (fs : FS) (name content : Str) : FS := aupsert fs name content

/-- The source's read-existing-then-concatenate append discipline:
`existing = (await file.exists()) ? await file.text() : ""`, then
`Bun.write(file, existing + line)`. -/
def fsAppend (fs : FS) (name line : Str) : FS :=
  fsWrite fs name ((fsLookup fs name).getD [] ++ line)

/-- The fixed audit file name. -/
def delName : Str := "deletions.logfmt".toList

/-- Whether the glob `*.logfmt` matches a file name. -/
def isLogfmt (name : Str) : Bool := (".logfmt".toList).isSuffixOf name

/-- The files the glob enumerates, in enumeration order. -/
def dayFiles (fs : FS) : FS := fs.filter (fun e => isLogfmt e.1)

/-- `getAllMemories`: read every globbed file except `deletions.logfmt`,
take its trimmed non-blank lines, decode each and keep the successes,
in file-then-line order. A missing directory or an empty glob both
yield the empty list, which the flat-map subsumes. -/
def getAllMemories (fs : FS) : List Memory :=
  (((dayFiles fs).filter (fun e => ¬ e.1 = delName)).flatMap
    (fun e => (splitOnC '\n' (trimStr e.2)).filter (fun l => ¬ l = []))).filterMap parseLine

/-- One deletion-audit line (the template of `logDeletion`), including its
trailing newline. -/
def auditLine (now : Str) (m : Memory) (reason : Str) : Str :=
  "ts=".toList ++ now ++ " action=deleted original_ts=".toList ++ m.ts ++
    " type=".toList ++ m.type ++ " scope=".toList ++ m.scope ++
    " content=\"".toList ++ escQ m.content ++ "\" reason=\"".toList ++ escQ reason ++
    "\"".toList ++ issueTok m.issue ++ tagsTok m.tags ++ "\n".toList

/-- `logDeletion`: append one audit line to the audit file (creating it if
absent). -/
def logDeletion (fs : FS) (now : Str) (m : Memory) (reason : Str) : FS :=
  fsAppend fs delName (auditLine now m reason)

/-! ## Search/ranking engine -/

/-- `scoreMatch`: the space-joined lowercased haystack of type, scope,
content and tags, then for each query word: +1 if it is a substring of
the haystack, +2 if it equals the lowercased scope, +2 if it equals the
lowercased type. -/
def searchableOf (m : Memory) : Str :=
  lowerStr (m.type ++ " ".toList ++ m.scope ++ " ".toList ++ m.content ++ " ".toList ++
    (match m.tags with
     | some ts => List.intercalate (" ".toList) ts
     | none => []))

def scoreMatch (m : Memory) (words : List Str) : Nat :=
  words.foldl
    (fun acc w =>
      acc + (if containsSub w (searchableOf m) then 1 else 0)
          + (if lowerStr m.scope = w then 2 else 0)
          + (if lowerStr m.type = w then 2 else 0))
    0

/-- `query.toLowerCase().split(/\s+/).filter(Boolean)`: lowercase, break at
whitespace, drop empty fields. Splitting at every whitespace character
and dropping empties yields the same tokens as splitting on runs. -/
def splitWs : Str → List Str
  | [] => [[]]
  | c :: cs =>
    if isSpaceC c then [] :: splitWs cs
    else
      match splitWs cs with
      | [] => [[c]]
      | h :: t => (c :: h) :: t

def tokenize (q : Str) : List Str :=
  (splitWs (lowerStr q)).filter (fun w => ¬ w = [])

/-! ## The update operation -/

structure MatchEntry where
  memory : Memory
  filepath : Str
  lineIndex : Nat
deriving DecidableEq, Repr

/-- The match-collection loop of `update.execute`: every globbed file
except the audit file, raw `split("\n")` lines (no trimming, no blank
filtering), decoded lines whose scope and type both equal the arguments,
with their file name and line index. -/
def collectMatches (sc ty : Str) (fs : FS) : List MatchEntry :=
  ((dayFiles fs).filter (fun e => ¬ e.1 = delName)).flatMap
    (fun e =>
      ((splitOnC '\n' e.2).enum).filterMap
        (fun p =>
          match parseLine p.2 with
          | some m =>
            if m.scope = sc ∧ m.type = ty then some ⟨m, e.1, p.1⟩ else none
          | none => none))

/-- Stable descending insertion by score: insert after all entries with a
score at least as large. JavaScript's `sort((a, b) => b.score - a.score)`
is a stable sort under this comparator, and a stable sort of a list
under a total preorder is unique, so this computes the same list. -/
def insDesc (x : MatchEntry × Nat) : List (MatchEntry × Nat) → List (MatchEntry × Nat)
  | [] => [x]
  | y :: ys => if y.2 < x.2 then x :: y :: ys else y :: insDesc x ys

def sortDesc (l : List (MatchEntry × Nat)) : List (MatchEntry × Nat) :=
  l.foldl (fun acc x => insDesc x acc) []

/-- The scored, filtered, descending-sorted candidate list used by
`update.execute` when a disambiguation query is supplied. -/
def scoredMatches (q : Str) (ms : List MatchEntry) : List (MatchEntry × Nat) :=
  sortDesc ((ms.map (fun m => (m, scoreMatch m.memory (tokenize q)))).filter
    (fun x => 0 < x.2))

structure UpdateArgs where
  scope : Str
  ty : Str
  content : Str
  query : Option Str
  issue : Option Str
  tags : Option (List Str)

inductive UpdateResult where
  | noFiles
  | notFound
  | ambiguous (count : Nat)
  | noQueryMatch (count : Nat)
  | updated
deriving DecidableEq, Repr

/-- The rewritten line of `update.execute`: new content and timestamp,
issue/tags taken from the arguments when supplied (`!== undefined`) and
inherited from the matched record otherwise. -/
def newLineFor (a : UpdateArgs) (nowUpd : Str) (t : MatchEntry) : Str :=
  mkLine nowUpd a.ty a.scope a.content
    (match a.issue with
     | some i => some i
     | none => t.memory.issue)
    (match a.tags with
     | some g => some g
     | none => t.memory.tags)

/-- The commit phase of `update.execute` after a target has been selected:
append the audit record for the superseded version, re-read the target
file, replace the matched line index, write the file back. -/
def commitUpdate (a : UpdateArgs) (nowDel nowUpd : Str) (fs : FS) (t : MatchEntry) :
    UpdateResult × FS :=
  let fs1 := logDeletion fs nowDel t.memory ("Updated to: ".toList ++ a.content)
  let lines := splitOnC '\n' ((fsLookup fs1 t.filepath).getD [])
  (.updated, fsWrite fs1 t.filepath (joinWithC '\n' (lines.set t.lineIndex (newLineFor a nowUpd t))))

/-- `update.execute`. A missing directory and an empty glob both report
no-files; zero matches reports not-found; a unique match commits
directly; several matches need a query, which ranks them and commits the
top-scoring one unless none scores above zero. -/
def update (a : UpdateArgs) (nowDel nowUpd : Str) (fs : FS) : UpdateResult × FS :=
  if dayFiles fs = [] then (.noFiles, fs)
  else
    match collectMatches a.scope a.ty fs with
    | [] => (.notFound, fs)
    | [t] => commitUpdate a nowDel nowUpd fs t
    | t0 :: t1 :: rest =>
      match a.query with
      | none => (.ambiguous (t0 :: t1 :: rest).length, fs)
      | some q =>
        match scoredMatches q (t0 :: t1 :: rest) with
        | [] => (.noQueryMatch (t0 :: t1 :: rest).length, fs)
        | top :: _ => commitUpdate a nowDel nowUpd fs top.1

/-! ## The forget operation -/

/-- Whether a raw line decodes to a record matching (scope, type) exactly:
the removal predicate of `forget.execute`. -/
def lineTargets (sc ty : Str) (l : Str) : Bool :=
  match parseLine l with
  | some m => m.scope = sc ∧ m.type = ty
  | none => false

/-- The record a removed line decoded to, for the deletion audit. -/
def lineTargetMem (sc ty : Str) (l : Str) : Option Memory :=
  match parseLine l with
  | some m => if m.scope = sc ∧ m.type = ty then some m else none
  | none => none

inductive ForgetResult where
  | noFiles
  | notFound
  | deleted (count : Nat)
deriving DecidableEq, Repr

/-- The lines of a file's text that survive a forget call:
`lines.filter(line => !matches(line))`. -/
def keptLines (sc ty : Str) (text : Str) : List Str :=
  (splitOnC '\n' text).filter (fun l => ¬ lineTargets sc ty l)

/-- Writing back one file inside `forget.execute`: the file is rewritten
without its matching lines only when the filter removed something
(`filtered.length !== lines.length`). -/
def forgetFileStep (sc ty : Str) (fs : FS) (name : Str) : FS :=
  if (keptLines sc ty ((fsLookup fs name).getD [])).length =
      (splitOnC '\n' ((fsLookup fs name).getD [])).length then fs
  else fsWrite fs name (joinWithC '\n' (keptLines sc ty ((fsLookup fs name).getD [])))

/-- The per-file loop of `forget.execute`: skip the audit file, keep only
the lines that do not match, write the file back when anything was
removed, and collect the removed records (`deletedMemories`) in
file-then-line order. -/
def forgetLoop (sc ty : Str) : List (Str × Str) → FS → FS × List Memory
  | [], fs => (fs, [])
  | e :: rest, fs =>
    if e.1 = delName then forgetLoop sc ty rest fs
    else
      ((forgetLoop sc ty rest (forgetFileStep sc ty fs e.1)).1,
        (splitOnC '\n' ((fsLookup fs e.1).getD [])).filterMap (lineTargetMem sc ty) ++
          (forgetLoop sc ty rest (forgetFileStep sc ty fs e.1)).2)

/-- `forget.execute`: remove every matching line from every day file, then
append one audit record per removed memory with the supplied reason, and
report the deletion count (zero deletions is the distinct not-found
outcome, not a failure). Each audit line's wall-clock instant is
modelled by the single parameter `now`. -/
def forget (sc ty reason now : Str) (fs : FS) : ForgetResult × FS :=
  if dayFiles fs = [] then (.noFiles, fs)
  else if (forgetLoop sc ty (dayFiles fs) fs).2.length = 0 then
    (.notFound, (forgetLoop sc ty (dayFiles fs) fs).2.foldl
      (fun f m => logDeletion f now m reason) (forgetLoop sc ty (dayFiles fs) fs).1)
  else
    (.deleted (forgetLoop sc ty (dayFiles fs) fs).2.length,
      (forgetLoop sc ty (dayFiles fs) fs).2.foldl (fun f m => logDeletion f now m reason)
        (forgetLoop sc ty (dayFiles fs) fs).1)

/-! ## Logger events and session routing -/

/-- A JSON value as far as the logger event envelope distinguishes them:
the envelope writes strings and nulls; caller payloads may carry
arbitrary values, represented abstractly by `.other`. -/
inductive JVal where
  | str (s : Str)
  | null
  | other (n : Nat)
deriving DecidableEq, Repr

/-- A JavaScript object, as an association list of its own enumerable
keys. An object literal assigns keys in source order, a later duplicate
key keeping the first position but taking the later value — exactly
`aupsert`. -/
abbrev Obj := List (Str × JVal)

def objLookup (o : Obj) (k : Str) : Option JVal := alookup o k

/-- `input.agent || null` / `input.taskID || null`: JavaScript truthiness,
the empty string also mapping to null. -/
def strOrNull : Option Str → JVal
  | some s => if s = [] then .null else .str s
  | none => .null

/-- `rootSessionID = input.parentSessionID || input.sessionID`: a single
step with JavaScript truthiness, not a walk of the parent chain. -/
def rootOneStep (sessionID : Str) (parentSessionID : Option Str) : Str :=
  match parentSessionID with
  | some p => if p = [] then sessionID else p
  | none => sessionID

/-- The fixed envelope fields of `buildLoggerEvent`, in literal order. -/
def loggerEnvelope (eventName now sessionID : Str)
    (parentSessionID taskID agent : Option Str) : Obj :=
  [("ts".toList, .str now),
   ("event".toList, .str eventName),
   ("session_id".toList, .str sessionID),
   ("subagent_session_id".toList, .str sessionID),
   ("parent_session_id".toList,
     match parentSessionID with
     | some p => .str p
     | none => .null),
   ("root_session_id".toList, .str (rootOneStep sessionID parentSessionID)),
   ("task_id".toList, strOrNull taskID),
   ("agent".toList, strOrNull agent)]

/-- `buildLoggerEvent`: the fixed envelope fields followed by the spread
of the payload, whose entries are merged with the later-wins semantics
of a JavaScript object literal. -/
def buildLoggerEvent (eventName now sessionID : Str) (parentSessionID : Option Str)
    (taskID : Option Str) (agent : Option Str) (payload : Obj) : Obj :=
  payload.foldl (fun acc e => aupsert acc e.1 e.2)
    (loggerEnvelope eventName now sessionID parentSessionID taskID agent)

/-- The nearest ancestor with no parent under a parent mapping, following
the chain for at most `fuel` steps (every session tree is finite, so a
fuel bound at least the tree depth is exact). This is the claimed
meaning of `root_session_id`. -/
def rootVia (par : Str → Option Str) : Nat → Str → Str
  | 0, sid => sid
  | n + 1, sid =>
    match par sid with
    | some p => rootVia par n p
    | none => sid

/-- Modelled from the spec: the session-aware event hooks of the newer
`index.ts` (absent under `src/`; its tests and the session-hierarchy
implementation plan remain) resolve the session's own SessionInfo and
pass its immediate parent id as `parentSessionID` when building the
event (`parentSessionID: info.parentID || null`). -/
def eventFor (par : Str → Option Str) (eventName now sid : Str) (taskID agent : Option Str)
    (payload : Obj) : Obj :=
  buildLoggerEvent eventName now sid (par sid) taskID agent payload

/-- Modelled from the spec: slugification lowercases, replaces
non-alphanumeric runs with a single hyphen, trims leading and trailing
hyphens, and truncates to 60 characters. -/
def isLowerAlnum (c : Char) : Bool :=
  ('a' ≤ c ∧ c ≤ 'z') ∨ ('0' ≤ c ∧ c ≤ '9')

/-- Collapse every run of consecutive hyphens to a single hyphen. -/
def squashHyphens : Str → Str
  | [] => []
  | [c] => [c]
  | c :: d :: rest =>
    if c = '-' ∧ d = '-' then squashHyphens (d :: rest)
    else c :: squashHyphens (d :: rest)

def trimHyphens (s : Str) : Str :=
  ((s.dropWhile (fun c => c = '-')).reverse.dropWhile (fun c => c = '-')).reverse

def slugify (t : Str) : Str :=
  (trimHyphens (squashHyphens ((lowerStr t).map (fun c => if isLowerAlnum c then c else '-')))).take 60

/-- Modelled from the spec: the raw session record the session-lookup
collaborator returns; `createdDate` is the UTC calendar date of the
creation instant, already rendered `YYYY-MM-DD`. -/
structure RawSession where
  id : Str
  title : Str
  parentID : Option Str
  createdDate : Str

/-- Modelled from the spec: resolved SessionInfo. -/
structure SessionInfo where
  id : Str
  title : Str
  parentID : Option Str
  slug : Str
deriving DecidableEq, Repr

/-- Modelled from the spec: `resolve(sessionId)` — on lookup success the
slug is `<creation-date>-<slugified-title>`; on lookup failure a
degraded SessionInfo reuses the raw id as id, title and slug, with no
parent. The process-wide cache only memoizes this pure function of the
lookup table, so it is semantically invisible here. -/
def resolveInfo (lk : Str → Option RawSession) (sid : Str) : SessionInfo :=
  match lk sid with
  | some r => ⟨r.id, r.title, r.parentID, r.createdDate ++ "-".toList ++ slugify r.title⟩
  | none => ⟨sid, sid, none, sid⟩

/-- Modelled from the spec: `resolvePath(sessionId)` — with a parent, the
directory is the parent's slug and the file is
`<agentHintOrSubagent>-<sessionId>.jsonl`; without one, the directory is
the session's own slug and the file is `main.jsonl`. -/
def sessionLogPath (lk : Str → Option RawSession) (agents : Str → Option Str) (sid : Str) :
    Str :=
  match (resolveInfo lk sid).parentID with
  | some p =>
    "sessions/".toList ++ (resolveInfo lk p).slug ++ "/".toList ++
      ((agents sid).getD ("subagent".toList)) ++ "-".toList ++ sid ++ ".jsonl".toList
  | none => "sessions/".toList ++ (resolveInfo lk sid).slug ++ "/main.jsonl".toList

/-- Modelled from the spec: the event log writer — no-op when logging is
disabled, otherwise append one JSON line to the resolved session file
with the usual read-then-concatenate discipline. The serialized JSON of
the event is abstracted as the `line` argument. -/
def appendSessionLog (enabled : Bool) (lk : Str → Option RawSession)
    (agents : Str → Option Str) (sid : Str) (line : Str) (fs : FS) : FS :=
  if enabled then fsAppend fs (sessionLogPath lk agents sid) (line ++ "\n".toList)
  else fs

/-! ## Association-list lemmas -/

theorem alookup_nil {α : Type} (k : Str) : alookup ([] : List (Str × α)) k = none := rfl

theorem alookup_cons {α : Type} (e : Str × α) (l : List (Str × α)) (k : Str) :
    alookup (e :: l) k = if e.1 = k then some e.2 else alookup l k := by
  by_cases h : e.1 = k <;> simp [alookup, List.find?, h]

theorem alookup_append {α : Type} (l₁ l₂ : List (Str × α)) (k : Str) :
    alookup (l₁ ++ l₂) k =
      match alookup l₁ k with
      | some v => some v
      | none => alookup l₂ k := by
  induction l₁ with
  | nil => simp [alookup_nil]
  | cons e t ih =>
    by_cases h : e.1 = k <;> simp [alookup_cons, h, ih]

theorem alookup_mapReplace_self {α : Type} (l : List (Str × α)) (k : Str) (v : α)
    (h : l.any (fun e => e.1 = k)) :
    alookup (l.map (fun e => if e.1 = k then (k, v) else e)) k = some v := by
  induction l with
  | nil => simp at h
  | cons e t ih =>
    by_cases he : e.1 = k
    · simp [alookup_cons, he]
    · have ht : t.any (fun e => e.1 = k) := by
        simp only [List.any_cons, Bool.or_eq_true_iff] at h
        rcases h with h1 | h2
        · exact absurd (of_decide_eq_true h1) he
        · exact h2
      simpa [alookup_cons, he] using ih ht

theorem alookup_mapReplace_other {α : Type} (l : List (Str × α)) (k k' : Str) (v : α)
    (hne : k' ≠ k) :
    alookup (l.map (fun e => if e.1 = k then (k, v) else e)) k' = alookup l k' := by
  induction l with
  | nil => rfl
  | cons e t ih =>
    by_cases he : e.1 = k
    · have h1 : ¬ e.1 = k' := by rw [he]; exact fun hh => hne hh.symm
      have h2 : ¬ k = k' := fun hh => hne hh.symm
      simp [alookup_cons, he, h1, h2, ih]
    · by_cases he' : e.1 = k' <;> simp [alookup_cons, he, he', ih, hne]

theorem alookup_not_mem {α : Type} (l : List (Str × α)) (k : Str)
    (h : ¬ l.any (fun e => e.1 = k)) : alookup l k = none := by
  induction l with
  | nil => rfl
  | cons e t ih =>
    simp only [List.any_cons, Bool.or_eq_true_iff, not_or] at h
    have he : ¬ e.1 = k := fun hh => h.1 (decide_eq_true hh)
    simp [alookup_cons, he, ih h.2]

theorem alookup_aupsert_self {α : Type} (l : List (Str × α)) (k : Str) (v : α) :
    alookup (aupsert l k v) k = some v := by
  unfold aupsert
  split
  · exact alookup_mapReplace_self l k v (by assumption)
  · rw [alookup_append, alookup_not_mem l k (by assumption)]
    simp [alookup_cons]

theorem alookup_aupsert_other {α : Type} (l : List (Str × α)) (k k' : Str) (v : α)
    (hne : k' ≠ k) : alookup (aupsert l k v) k' = alookup l k' := by
  unfold aupsert
  split
  · exact alookup_mapReplace_other l k k' v hne
  · rw [alookup_append]
    cases hv : alookup l k' with
    | some v' => simp
    | none =>
      have : ¬ k = k' := fun hh => hne hh.symm
      simp [alookup_cons, this, alookup_nil]

theorem fsAppend_lookup_self (fs : FS) (n l : Str) :
    fsLookup (fsAppend fs n l) n = some ((fsLookup fs n).getD [] ++ l) :=
  alookup_aupsert_self fs n _

theorem fsAppend_lookup_other (fs : FS) (n n' l : Str) (hne : n' ≠ n) :
    fsLookup (fsAppend fs n l) n' = fsLookup fs n' :=
  alookup_aupsert_other fs n n' _ hne

theorem fsWrite_lookup_self (fs : FS) (n c : Str) :
    fsLookup (fsWrite fs n c) n = some c :=
  alookup_aupsert_self fs n c

theorem fsWrite_lookup_other (fs : FS) (n n' c : Str) (hne : n' ≠ n) :
    fsLookup (fsWrite fs n c) n' = fsLookup fs n' :=
  alookup_aupsert_other fs n n' c hne

/-- In a directory with distinct file names, reading an enumerated entry
returns its content. -/
theorem fsLookup_of_mem_nodup (fs : FS) (e : Str × Str) (hm : e ∈ fs)
    (hnd : (fs.map Prod.fst).Nodup) : fsLookup fs e.1 = some e.2 := by
  induction fs with
  | nil => simp at hm
  | cons f t ih =>
    rcases List.mem_cons.mp hm with h | h
    · subst h; simp [fsLookup, alookup_cons]
    · have hne : ¬ f.1 = e.1 := by
        intro hh
        have : e.1 ∈ t.map Prod.fst := List.mem_map_of_mem Prod.fst h
        rw [← hh] at this
        exact (List.nodup_cons.mp hnd).1 this
      have := ih h (List.nodup_cons.mp hnd).2
      simpa [fsLookup, alookup_cons, hne] using this

/-! ## Split/join identity -/

theorem splitOnC_ne_nil (sep : Char) (s : Str) : splitOnC sep s ≠ [] := by
  cases s with
  | nil => simp [splitOnC]
  | cons c cs =>
    unfold splitOnC
    by_cases h : c = sep
    · simp [h]
    · rcases hs : splitOnC sep cs with _ | ⟨h1, t1⟩ <;> simp [h, hs]

/-- Splitting a string at a separator and joining the parts back restores
the string: `lines.join("\n")` after `text.split("\n")` is `text`. -/
theorem joinWithC_splitOnC (sep : Char) (s : Str) : joinWithC sep (splitOnC sep s) = s := by
  induction s with
  | nil => rfl
  | cons c cs ih =>
    rcases hs : splitOnC sep cs with _ | ⟨h1, t1⟩
    · exact absurd hs (splitOnC_ne_nil sep cs)
    · rw [hs] at ih
      unfold splitOnC
      by_cases h : c = sep
      · rw [if_pos h, hs]
        show sep :: joinWithC sep (h1 :: t1) = c :: cs
        rw [ih, h]
      · rw [if_neg h, hs]
        cases t1 with
        | nil =>
          show c :: h1 = c :: cs
          rw [show h1 = cs from ih]
        | cons h2 t2 =>
          show c :: joinWithC sep (h1 :: h2 :: t2) = c :: cs
          rw [ih]

/-! ## Ranking lemmas -/

theorem mem_insDesc (x y : MatchEntry × Nat) (l : List (MatchEntry × Nat)) :
    y ∈ insDesc x l ↔ y = x ∨ y ∈ l := by
  induction l with
  | nil => simp [insDesc]
  | cons z t ih =>
    unfold insDesc
    by_cases h : z.2 < x.2 <;> (simp [h, List.mem_cons, ih]; try tauto)

theorem mem_sortDesc_aux (y : MatchEntry × Nat) (l acc : List (MatchEntry × Nat)) :
    y ∈ l.foldl (fun a x => insDesc x a) acc ↔ y ∈ acc ∨ y ∈ l := by
  induction l generalizing acc with
  | nil => simp
  | cons z t ih =>
    simp only [List.foldl_cons, ih, mem_insDesc, List.mem_cons]
    tauto

theorem mem_sortDesc (y : MatchEntry × Nat) (l : List (MatchEntry × Nat)) :
    y ∈ sortDesc l ↔ y ∈ l := by
  unfold sortDesc
  rw [mem_sortDesc_aux]
  simp

theorem pairwise_insDesc (x : MatchEntry × Nat) (l : List (MatchEntry × Nat))
    (h : l.Pairwise (fun a b => b.2 ≤ a.2)) :
    (insDesc x l).Pairwise (fun a b => b.2 ≤ a.2) := by
  induction l with
  | nil => simp [insDesc]
  | cons z t ih =>
    unfold insDesc
    rcases List.pairwise_cons.mp h with ⟨hz, ht⟩
    by_cases hlt : z.2 < x.2
    · rw [if_pos hlt]
      refine List.pairwise_cons.mpr ⟨?_, h⟩
      intro b hb
      rcases List.mem_cons.mp hb with hb | hb
      · exact hb ▸ le_of_lt hlt
      · exact le_trans (hz b hb) (le_of_lt hlt)
    · rw [if_neg hlt]
      refine List.pairwise_cons.mpr ⟨?_, ih ht⟩
      intro b hb
      rcases (mem_insDesc x b t).mp hb with hb | hb
      · exact hb ▸ le_of_not_lt hlt
      · exact hz b hb

theorem pairwise_sortDesc_aux (l acc : List (MatchEntry × Nat))
    (hacc : acc.Pairwise (fun a b => b.2 ≤ a.2)) :
    (l.foldl (fun a x => insDesc x a) acc).Pairwise (fun a b => b.2 ≤ a.2) := by
  induction l generalizing acc with
  | nil => simpa
  | cons z t ih => exact ih (insDesc z acc) (pairwise_insDesc z acc hacc)

theorem pairwise_sortDesc (l : List (MatchEntry × Nat)) :
    (sortDesc l).Pairwise (fun a b => b.2 ≤ a.2) :=
  pairwise_sortDesc_aux l [] (by simp)

/-- The head of the sorted candidate list carries a maximal score. -/
theorem sortDesc_head_max (l : List (MatchEntry × Nat)) (t : MatchEntry × Nat)
    (rest : List (MatchEntry × Nat)) (hs : sortDesc l = t :: rest) :
    ∀ y ∈ l, y.2 ≤ t.2 := by
  intro y hy
  have hy' : y ∈ sortDesc l := (mem_sortDesc y l).mpr hy
  rw [hs] at hy'
  rcases List.mem_cons.mp hy' with h | h
  · exact h ▸ le_refl _
  · have hp := pairwise_sortDesc l
    rw [hs] at hp
    exact (List.pairwise_cons.mp hp).1 y h

/-- Closed form of `scoreMatch`: the number of words that are substrings
of the searchable haystack, plus two per word equal to the lowercased
scope, plus two per word equal to the lowercased type. -/
theorem scoreMatch_closed_aux (m : Memory) (words : List Str) (acc : Nat) :
    words.foldl
      (fun acc w =>
        acc + (if containsSub w (searchableOf m) then 1 else 0)
            + (if lowerStr m.scope = w then 2 else 0)
            + (if lowerStr m.type = w then 2 else 0))
      acc =
      acc + words.countP (fun w => containsSub w (searchableOf m))
          + 2 * words.countP (fun w => lowerStr m.scope = w)
          + 2 * words.countP (fun w => lowerStr m.type = w) := by
  induction words generalizing acc with
  | nil => simp
  | cons w ws ih =>
    simp only [List.foldl_cons, List.countP_cons, ih]
    by_cases h1 : containsSub w (searchableOf m) <;>
      by_cases h2 : lowerStr m.scope = w <;>
        by_cases h3 : lowerStr m.type = w <;>
          simp [h1, h2, h3] <;> ring

theorem scoreMatch_closed (m : Memory) (words : List Str) :
    scoreMatch m words =
      words.countP (fun w => containsSub w (searchableOf m))
        + 2 * words.countP (fun w => lowerStr m.scope = w)
        + 2 * words.countP (fun w => lowerStr m.type = w) := by
  unfold scoreMatch
  simpa using scoreMatch_closed_aux m words 0

/-! ## Claim C1: codec round trip -/

/-- A record whose content contains a double-quote character. -/
def c1Rec : Memory :=
  ⟨"2026-01-01T00:00:00.000Z".toList, "decision".toList, "auth".toList,
    "a\"b".toList, none, none⟩

/-- C1: the claim states that decoding a well-formed encoded line and
re-encoding the decoded record reproduces the line, in particular for
content containing double-quote characters. This fails: encoding
`a"b` writes `content="a\"b"`, but the decode regex lets its greedy
`[^"]*` consume the escaping backslash and then accepts the interior
quote as the closing delimiter, so the decoded content is `a\` and the
re-encoded line differs from the original. The escaping machinery the
source carries for exactly this case (the `(?:\\"[^"]*)*` alternative
and the `\\"` unescape) is unreachable, so the spec states the evident
intent and the code is a slip: a code bug, witnessed here by evaluating
the code at the failing input. -/
theorem c1_escape_roundtrip_code_bug :
    (parseLine (encodeMemory c1Rec)).map Memory.content = some ("a\\".toList) ∧
    "a\\".toList ≠ c1Rec.content ∧
    (parseLine (encodeMemory c1Rec)).map encodeMemory ≠ some (encodeMemory c1Rec) := by
  refine ⟨by decide, by decide, by decide⟩

/-! ## Claim C4: ranking formula -/

/-- Record A of the spec's ranking example: scope `auth`. -/
def c4RecA : Memory :=
  ⟨"2026-01-01T00:00:00.000Z".toList, "decision".toList, "auth".toList,
    "jwt everywhere".toList, none, none⟩

/-- Record B of the spec's ranking example: scope `mobile-auth`, content
`auth token`. -/
def c4RecB : Memory :=
  ⟨"2026-01-01T00:00:00.000Z".toList, "decision".toList, "mobile-auth".toList,
    "auth token".toList, none, none⟩

/-- C4: a record's score is the number of query tokens that occur as
substrings of the lowercased space-joined concatenation of type, scope,
content and tags, plus 2 per token equal (case-insensitively) to the
record's scope, plus 2 per token equal to its type; consequently for the
query `auth`, record A (scope `auth`) scores 3 = 1 + 2 while record B
(scope `mobile-auth`, content `auth token`) scores only its substring
point, 1. -/
theorem c4_score_formula :
    (∀ (m : Memory) (words : List Str),
      scoreMatch m words =
        words.countP (fun w => containsSub w (searchableOf m))
          + 2 * words.countP (fun w => lowerStr m.scope = w)
          + 2 * words.countP (fun w => lowerStr m.type = w)) ∧
    scoreMatch c4RecA (tokenize ("auth".toList)) = 3 ∧
    scoreMatch c4RecB (tokenize ("auth".toList)) = 1 :=
  ⟨scoreMatch_closed, by decide, by decide⟩

/-! ## Claim C5: lenient decoding -/

/-- A well-formed line. -/
def c5Good : Str :=
  "ts=2026-01-01T00:00:00.000Z type=decision scope=auth content=\"use jwt\"".toList

/-- A line missing its required `scope` field. -/
def c5Bad : Str :=
  "ts=2026-01-01T00:00:00.000Z type=decision content=\"no scope here\"".toList

/-- A store with one day file holding one well-formed line, one line
missing a required field, and trailing blank lines. -/
def c5Store : FS :=
  [("2026-01-01.logfmt".toList, c5Good ++ "\n".toList ++ c5Bad ++ "\n\n".toList)]

/-- A well-formed line carrying extra unknown tokens from a future format
version. -/
def c5Extra : Str := c5Good ++ " version=2 future_field=zzz".toList

/-- C5: decoding is total (the embedding of `parseLine` is a total
function into `Option`, mirroring that the source returns `null` rather
than raising); a line decodes to nothing precisely when its `ts`, `type`
or `scope` field is missing; extra unknown tokens are ignored; and a
full scan of a file holding one well-formed line, one line missing a
required field, and trailing blank lines yields exactly the one
well-formed record. -/
theorem c5_lenient_decode :
    (∀ l : Str, parseLine l = none ↔
      (findKeyToken ("ts=".toList) l = none ∨ findKeyToken ("type=".toList) l = none ∨
        findKeyToken ("scope=".toList) l = none)) ∧
    getAllMemories c5Store = [⟨"2026-01-01T00:00:00.000Z".toList, "decision".toList,
      "auth".toList, "use jwt".toList, none, none⟩] ∧
    parseLine c5Extra = parseLine c5Good := by
  refine ⟨fun l => ?_, by decide, by decide⟩
  unfold parseLine
  rcases h1 : findKeyToken ("ts=".toList) l with _ | v1 <;>
    rcases h2 : findKeyToken ("type=".toList) l with _ | v2 <;>
      rcases h3 : findKeyToken ("scope=".toList) l with _ | v3 <;> simp

/-! ## Update-operation lemmas -/

theorem collectMatches_of_dayFiles_nil (sc ty : Str) (fs : FS) (h : dayFiles fs = []) :
    collectMatches sc ty fs = [] := by
  simp [collectMatches, h]

/-- A collected match never points at the audit file. -/
theorem collectMatches_filepath_ne_delName (sc ty : Str) (fs : FS) (t : MatchEntry)
    (hm : t ∈ collectMatches sc ty fs) : ¬ t.filepath = delName := by
  simp only [collectMatches, List.mem_flatMap, List.mem_filter, List.mem_filterMap] at hm
  rcases hm with ⟨e, ⟨_, hne⟩, p, _, hp⟩
  split at hp
  · split at hp
    · cases hp
      simpa using hne
    · simp at hp
  · simp at hp

/-- The commit phase: result `updated`, the audit line appended to the
audit file, the target file rewritten with the matched line index
replaced, everything else untouched. -/
theorem commitUpdate_spec (a : UpdateArgs) (nowD nowU : Str) (fs : FS) (t : MatchEntry)
    (hne : ¬ t.filepath = delName) :
    (commitUpdate a nowD nowU fs t).1 = .updated ∧
    (fsLookup (commitUpdate a nowD nowU fs t).2 delName).getD [] =
      (fsLookup fs delName).getD [] ++
        auditLine nowD t.memory ("Updated to: ".toList ++ a.content) ∧
    fsLookup (commitUpdate a nowD nowU fs t).2 t.filepath =
      some (joinWithC '\n' ((splitOnC '\n' ((fsLookup fs t.filepath).getD [])).set
        t.lineIndex (newLineFor a nowU t))) ∧
    ∀ n, ¬ n = delName → ¬ n = t.filepath →
      fsLookup (commitUpdate a nowD nowU fs t).2 n = fsLookup fs n := by
  unfold commitUpdate logDeletion
  refine ⟨rfl, ?_, ?_, ?_⟩
  · rw [fsWrite_lookup_other _ _ _ _ (fun hh => hne hh.symm), fsAppend_lookup_self]
    simp
  · rw [fsWrite_lookup_self, fsAppend_lookup_other _ _ _ _ hne]
  · intro n hnd hnf
    rw [fsWrite_lookup_other _ _ _ _ hnf, fsAppend_lookup_other _ _ _ _ hnd]

/-- Every scored candidate comes from the match list, scores positive, and
carries its own score. -/
theorem scoredMatches_mem (q : Str) (ms : List MatchEntry) (x : MatchEntry × Nat)
    (hx : x ∈ scoredMatches q ms) :
    x.1 ∈ ms ∧ 0 < x.2 ∧ x.2 = scoreMatch x.1.memory (tokenize q) := by
  unfold scoredMatches at hx
  have hx' := (mem_sortDesc x _).mp hx
  rcases List.mem_filter.mp hx' with ⟨hmap, hpos⟩
  rcases List.mem_map.mp hmap with ⟨m, hm, hEq⟩
  refine ⟨?_, by simpa using hpos, ?_⟩
  · rw [← hEq]; exact hm
  · rw [← hEq]

/-- The head of the scored candidate list scores at least every match
(scores of zero are below it trivially, positive ones by sortedness). -/
theorem scoredMatches_head_max (q : Str) (ms : List MatchEntry) (top : MatchEntry × Nat)
    (rest : List (MatchEntry × Nat)) (hs : scoredMatches q ms = top :: rest) :
    ∀ t' ∈ ms, scoreMatch t'.memory (tokenize q) ≤ top.2 := by
  intro t' ht'
  by_cases hz : 0 < scoreMatch t'.memory (tokenize q)
  · have hmem : (t', scoreMatch t'.memory (tokenize q)) ∈
        (ms.map (fun m => (m, scoreMatch m.memory (tokenize q)))).filter (fun x => 0 < x.2) := by
      refine List.mem_filter.mpr ⟨List.mem_map.mpr ⟨t', ht', rfl⟩, by simpa using hz⟩
    exact sortDesc_head_max _ top rest hs _ hmem
  · omega

/-! ## Claim C2: update semantics -/

/-- C2: for every update call with a (scope, type) pair — zero exact
matches reports not-found; a unique match is rewritten in place (same
file, same line index, every other file untouched) with the new content
and fresh timestamp, inheriting unspecified issue/tags via
`newLineFor`, after a deletion-audit record for the superseded version
is appended; several matches without a disambiguation query report
ambiguity; with a query, the top-scoring match under the ranking engine
is committed the same way, and ambiguity is reported exactly when no
match scores above zero. -/
theorem c2_update_semantics (a : UpdateArgs) (nowD nowU : Str) (fs : FS) :
    (¬ dayFiles fs = [] → collectMatches a.scope a.ty fs = [] →
      update a nowD nowU fs = (.notFound, fs)) ∧
    (∀ t, collectMatches a.scope a.ty fs = [t] →
      (update a nowD nowU fs).1 = .updated ∧
      (fsLookup (update a nowD nowU fs).2 delName).getD [] =
        (fsLookup fs delName).getD [] ++
          auditLine nowD t.memory ("Updated to: ".toList ++ a.content) ∧
      fsLookup (update a nowD nowU fs).2 t.filepath =
        some (joinWithC '\n' ((splitOnC '\n' ((fsLookup fs t.filepath).getD [])).set
          t.lineIndex (newLineFor a nowU t))) ∧
      ∀ n, ¬ n = delName → ¬ n = t.filepath →
        fsLookup (update a nowD nowU fs).2 n = fsLookup fs n) ∧
    (1 < (collectMatches a.scope a.ty fs).length → a.query = none →
      update a nowD nowU fs = (.ambiguous (collectMatches a.scope a.ty fs).length, fs)) ∧
    (∀ q, a.query = some q → 1 < (collectMatches a.scope a.ty fs).length →
      (scoredMatches q (collectMatches a.scope a.ty fs) = [] →
        update a nowD nowU fs = (.noQueryMatch (collectMatches a.scope a.ty fs).length, fs)) ∧
      (∀ top rest, scoredMatches q (collectMatches a.scope a.ty fs) = top :: rest →
        top.1 ∈ collectMatches a.scope a.ty fs ∧
        0 < top.2 ∧
        top.2 = scoreMatch top.1.memory (tokenize q) ∧
        (∀ t' ∈ collectMatches a.scope a.ty fs,
          scoreMatch t'.memory (tokenize q) ≤ top.2) ∧
        (update a nowD nowU fs).1 = .updated ∧
        (fsLookup (update a nowD nowU fs).2 delName).getD [] =
          (fsLookup fs delName).getD [] ++
            auditLine nowD top.1.memory ("Updated to: ".toList ++ a.content) ∧
        fsLookup (update a nowD nowU fs).2 top.1.filepath =
          some (joinWithC '\n' ((splitOnC '\n' ((fsLookup fs top.1.filepath).getD [])).set
            top.1.lineIndex (newLineFor a nowU top.1))) ∧
        ∀ n, ¬ n = delName → ¬ n = top.1.filepath →
          fsLookup (update a nowD nowU fs).2 n = fsLookup fs n)) := by
  refine ⟨?_, ?_, ?_, ?_⟩
  · intro hd hm
    unfold update
    rw [if_neg hd, hm]
  · intro t hm
    have hd : ¬ dayFiles fs = [] := by
      intro h
      rw [collectMatches_of_dayFiles_nil a.scope a.ty fs h] at hm
      cases hm
    have hne : ¬ t.filepath = delName :=
      collectMatches_filepath_ne_delName a.scope a.ty fs t (by rw [hm]; exact List.mem_singleton.mpr rfl)
    have hupd : update a nowD nowU fs = commitUpdate a nowD nowU fs t := by
      unfold update
      rw [if_neg hd, hm]
    rw [hupd]
    exact commitUpdate_spec a nowD nowU fs t hne
  · intro hlen hq
    rcases hm : collectMatches a.scope a.ty fs with _ | ⟨t0, _ | ⟨t1, rest⟩⟩
    · rw [hm] at hlen; simp at hlen
    · rw [hm] at hlen; simp at hlen
    · have hd : ¬ dayFiles fs = [] := by
        intro h
        rw [collectMatches_of_dayFiles_nil a.scope a.ty fs h] at hm
        cases hm
      unfold update
      rw [if_neg hd, hm, hq]
  · intro q hq hlen
    rcases hm : collectMatches a.scope a.ty fs with _ | ⟨t0, _ | ⟨t1, rest⟩⟩
    · rw [hm] at hlen; simp at hlen
    · rw [hm] at hlen; simp at hlen
    · have hd : ¬ dayFiles fs = [] := by
        intro h
        rw [collectMatches_of_dayFiles_nil a.scope a.ty fs h] at hm
        cases hm
      constructor
      · intro hs
        unfold update
        rw [if_neg hd, hm, hq]
        simp only [hs]
      · intro top rrest hs
        have htop := scoredMatches_mem q _ top (by rw [hs]; exact List.mem_cons_self _ _)
        have hneTop : ¬ top.1.filepath = delName :=
          collectMatches_filepath_ne_delName a.scope a.ty fs top.1 (hm ▸ htop.1)
        have hupd : update a nowD nowU fs = commitUpdate a nowD nowU fs top.1 := by
          unfold update
          rw [if_neg hd, hm, hq]
          simp only [hs]
        refine ⟨hm ▸ htop.1, htop.2.1, htop.2.2, ?_, ?_⟩
        · intro t' ht'
          exact scoredMatches_head_max q _ top rrest hs t' (hm ▸ ht')
        · rw [hupd]
          exact commitUpdate_spec a nowD nowU fs top.1 hneTop

def c2Args : UpdateArgs :=
  ⟨"auth".toList, "decision".toList, "use mTLS".toList, none, none, none⟩

def c2NowD : Str := "2026-03-01T09:00:00.000Z".toList

def c2NowU : Str := "2026-03-01T09:00:00.001Z".toList

def c2Day : Str := "2026-03-01.logfmt".toList

def c2Mem : Memory :=
  ⟨"2026-02-01T10:00:00.000Z".toList, "decision".toList, "auth".toList,
    "use jwt".toList, some ("#12".toList), some ["security".toList]⟩

/-- A store with a single day file holding the single matching record. -/
def c2Fs : FS := [(c2Day, encodeMemory c2Mem ++ "\n".toList)]

def c2Target : MatchEntry := ⟨c2Mem, c2Day, 0⟩

/-- Witness for C2 at a concrete store with exactly one (scope, type)
match: the unique-match branch of the theorem applies and yields the
committed rewrite. -/
theorem c2_update_semantics_witness :
    (update c2Args c2NowD c2NowU c2Fs).1 = .updated ∧
    (fsLookup (update c2Args c2NowD c2NowU c2Fs).2 delName).getD [] =
      (fsLookup c2Fs delName).getD [] ++
        auditLine c2NowD c2Target.memory ("Updated to: ".toList ++ c2Args.content) ∧
    fsLookup (update c2Args c2NowD c2NowU c2Fs).2 c2Target.filepath =
      some (joinWithC '\n' ((splitOnC '\n' ((fsLookup c2Fs c2Target.filepath).getD [])).set
        c2Target.lineIndex (newLineFor c2Args c2NowU c2Target))) := by
  have h := (c2_update_semantics c2Args c2NowD c2NowU c2Fs).2.1 c2Target (by decide)
  exact ⟨h.1, h.2.1, h.2.2.1⟩

/-! ## Forget-operation lemmas -/

/-- The records the forget loop removes, in file-then-line order: the
decoded (scope, type)-matching lines of every globbed file except the
audit file. -/
def removedRecords (sc ty : Str) (fs : FS) : List Memory :=
  (dayFiles fs).flatMap (fun e =>
    if e.1 = delName then []
    else (splitOnC '\n' e.2).filterMap (lineTargetMem sc ty))


/-- After the per-file step, the file holds exactly its kept lines
(whether or not the write was skipped as a no-op). -/
theorem forgetFileStep_lookup_self (sc ty : Str) (fs : FS) (n text : Str)
    (h : fsLookup fs n = some text) :
    fsLookup (forgetFileStep sc ty fs n) n = some (joinWithC '\n' (keptLines sc ty text)) := by
  unfold forgetFileStep
  rw [h]
  by_cases hlen : (keptLines sc ty ((some text).getD [])).length =
      (splitOnC '\n' ((some text).getD [])).length
  · rw [if_pos hlen, h]
    have hk : keptLines sc ty text = splitOnC '\n' text :=
      List.filter_eq_self.mpr (List.filter_length_eq_length.mp hlen)
    rw [show ((some text).getD [] : Str) = text from rfl] at *
    rw [hk, joinWithC_splitOnC]
  · rw [if_neg hlen]
    exact fsWrite_lookup_self fs n _

theorem forgetFileStep_lookup_other (sc ty : Str) (fs : FS) (n n' : Str) (hne : ¬ n' = n) :
    fsLookup (forgetFileStep sc ty fs n) n' = fsLookup fs n' := by
  unfold forgetFileStep
  by_cases hlen : (keptLines sc ty ((fsLookup fs n).getD [])).length =
      (splitOnC '\n' ((fsLookup fs n).getD [])).length
  · rw [if_pos hlen]
  · rw [if_neg hlen]
    exact fsWrite_lookup_other fs n n' _ hne

/-- Files whose names the loop never writes keep their lookups. -/
theorem forgetLoop_frame (sc ty : Str) (files : List (Str × Str)) :
    ∀ (fs : FS) (n : Str), (∀ e ∈ files, ¬ e.1 = delName → ¬ n = e.1) →
      fsLookup (forgetLoop sc ty files fs).1 n = fsLookup fs n := by
  induction files with
  | nil => intro fs n _; rfl
  | cons e rest ih =>
    intro fs n hn
    unfold forgetLoop
    by_cases hdel : e.1 = delName
    · rw [if_pos hdel]
      exact ih fs n (fun e' he' => hn e' (List.mem_cons_of_mem e he'))
    · rw [if_neg hdel]
      show fsLookup (forgetLoop sc ty rest (forgetFileStep sc ty fs e.1)).1 n = _
      rw [ih _ n (fun e' he' => hn e' (List.mem_cons_of_mem e he'))]
      exact forgetFileStep_lookup_other sc ty fs e.1 n (hn e (List.mem_cons_self e rest) hdel)

/-- The forget loop under distinct file names whose contents the store
reports: each non-audit file ends up holding exactly its non-matching
lines, and the removed records are the decoded matching lines of the
processed files in order. -/
theorem forgetLoop_spec (sc ty : Str) (files : List (Str × Str)) :
    ∀ fs : FS, (files.map Prod.fst).Nodup →
    (∀ e ∈ files, fsLookup fs e.1 = some e.2) →
    (∀ e ∈ files, ¬ e.1 = delName →
      fsLookup (forgetLoop sc ty files fs).1 e.1 =
        some (joinWithC '\n' (keptLines sc ty e.2))) ∧
    (forgetLoop sc ty files fs).2 =
      files.flatMap (fun e =>
        if e.1 = delName then []
        else (splitOnC '\n' e.2).filterMap (lineTargetMem sc ty)) := by
  induction files with
  | nil => intro fs _ _; exact ⟨fun e he => absurd he (List.not_mem_nil e), rfl⟩
  | cons e rest ih =>
    intro fs hnd hlk
    have hndRest : (rest.map Prod.fst).Nodup := (List.nodup_cons.mp (by simpa using hnd)).2
    have hheadNotRest : e.1 ∉ rest.map Prod.fst := (List.nodup_cons.mp (by simpa using hnd)).1
    have htext : fsLookup fs e.1 = some e.2 := hlk e (List.mem_cons_self e rest)
    by_cases hdel : e.1 = delName
    · have hstep : forgetLoop sc ty (e :: rest) fs = forgetLoop sc ty rest fs := by
        rw [forgetLoop, if_pos hdel]
      have hrest := ih fs hndRest (fun e' he' => hlk e' (List.mem_cons_of_mem e he'))
      constructor
      · intro e' he' hdel'
        rcases List.mem_cons.mp he' with h | h
        · rw [h] at hdel'; exact absurd hdel hdel'
        · rw [hstep]; exact hrest.1 e' h hdel'
      · rw [hstep, List.flatMap_cons, if_pos hdel, List.nil_append]
        exact hrest.2
    · have hfs' : ∀ e' ∈ rest, fsLookup (forgetFileStep sc ty fs e.1) e'.1 = some e'.2 := by
        intro e' he'
        have hne : ¬ e'.1 = e.1 := by
          intro hh
          exact hheadNotRest (hh ▸ List.mem_map_of_mem Prod.fst he')
        rw [forgetFileStep_lookup_other sc ty fs e.1 e'.1 hne]
        exact hlk e' (List.mem_cons_of_mem e he')
      have hrest := ih _ hndRest hfs'
      have hstep1 : (forgetLoop sc ty (e :: rest) fs).1 =
          (forgetLoop sc ty rest (forgetFileStep sc ty fs e.1)).1 := by
        rw [forgetLoop, if_neg hdel]
      have hstep2 : (forgetLoop sc ty (e :: rest) fs).2 =
          (splitOnC '\n' ((fsLookup fs e.1).getD [])).filterMap (lineTargetMem sc ty) ++
            (forgetLoop sc ty rest (forgetFileStep sc ty fs e.1)).2 := by
        rw [forgetLoop, if_neg hdel]
      constructor
      · intro e' he' hdel'
        rcases List.mem_cons.mp he' with h | h
        · subst h
          rw [hstep1]
          rw [forgetLoop_frame sc ty rest _ e'.1 ?frame]
          case frame =>
            intro e2 he2 _
            intro hh
            exact hheadNotRest (hh ▸ List.mem_map_of_mem Prod.fst he2)
          exact forgetFileStep_lookup_self sc ty fs e'.1 e'.2 htext
        · rw [hstep1]
          exact hrest.1 e' h hdel'
      · rw [hstep2, hrest.2, List.flatMap_cons, if_neg hdel, htext]
        rfl

/-- Folding `logDeletion` over the removed records appends exactly one
audit line per record to the audit file. -/
theorem foldLogDeletion_lookup_del (reason now : Str) (dels : List Memory) :
    ∀ fs : FS,
      (fsLookup (dels.foldl (fun f m => logDeletion f now m reason) fs) delName).getD [] =
        (fsLookup fs delName).getD [] ++
          (dels.map (fun m => auditLine now m reason)).flatten := by
  induction dels with
  | nil => intro fs; simp
  | cons m ms ih =>
    intro fs
    have h1 : (fsLookup (logDeletion fs now m reason) delName).getD [] =
        (fsLookup fs delName).getD [] ++ auditLine now m reason := by
      unfold logDeletion
      rw [fsAppend_lookup_self]
      rfl
    rw [List.foldl_cons, ih, h1, List.map_cons, List.flatten_cons, List.append_assoc]

theorem foldLogDeletion_lookup_other (reason now : Str) (dels : List Memory) :
    ∀ (fs : FS) (n : Str), ¬ n = delName →
      fsLookup (dels.foldl (fun f m => logDeletion f now m reason) fs) n = fsLookup fs n := by
  induction dels with
  | nil => intro fs n _; rfl
  | cons m ms ih =>
    intro fs n hn
    rw [List.foldl_cons, ih _ n hn]
    unfold logDeletion
    exact fsAppend_lookup_other fs delName n _ hn

/-! ## Claim C3: forget semantics -/

/-- C3: for every forget call, every line of every day file whose decoded
record matches (scope, type) exactly is removed — each affected file is
rewritten to exactly its non-matching lines, files outside the store's
glob are untouched — exactly one deletion-audit line per removed record
(carrying the supplied reason) is appended to the audit file in order,
the reported count is the number of removed records, and zero deletions
is the distinct not-found report while a missing store is the separate
no-files report. -/
theorem c3_forget_semantics (sc ty reason now : Str) (fs : FS) :
    (dayFiles fs = [] → forget sc ty reason now fs = (.noFiles, fs)) ∧
    ((fs.map Prod.fst).Nodup → ¬ dayFiles fs = [] →
      (∀ e ∈ fs, isLogfmt e.1 → ¬ e.1 = delName →
        fsLookup (forget sc ty reason now fs).2 e.1 =
          some (joinWithC '\n' (keptLines sc ty e.2))) ∧
      (fsLookup (forget sc ty reason now fs).2 delName).getD [] =
        (fsLookup fs delName).getD [] ++
          ((removedRecords sc ty fs).map (fun m => auditLine now m reason)).flatten ∧
      (∀ n, ¬ isLogfmt n → fsLookup (forget sc ty reason now fs).2 n = fsLookup fs n) ∧
      (forget sc ty reason now fs).1 =
        (if (removedRecords sc ty fs).length = 0 then ForgetResult.notFound
         else .deleted (removedRecords sc ty fs).length)) := by
  constructor
  · intro h
    unfold forget
    rw [if_pos h]
  · intro hnd hd
    have hdfNodup : ((dayFiles fs).map Prod.fst).Nodup :=
      hnd.sublist ((List.filter_sublist fs).map Prod.fst)
    have hdfLk : ∀ e ∈ dayFiles fs, fsLookup fs e.1 = some e.2 := fun e he =>
      fsLookup_of_mem_nodup fs e (List.mem_of_mem_filter he) hnd
    have hloop := forgetLoop_spec sc ty (dayFiles fs) fs hdfNodup hdfLk
    have hr2 : (forgetLoop sc ty (dayFiles fs) fs).2 = removedRecords sc ty fs := hloop.2
    have hfsEq : (forget sc ty reason now fs).2 =
        (removedRecords sc ty fs).foldl (fun f m => logDeletion f now m reason)
          (forgetLoop sc ty (dayFiles fs) fs).1 := by
      unfold forget
      rw [if_neg hd, hr2]
      split <;> rfl
    refine ⟨?_, ?_, ?_, ?_⟩
    · intro e he hlog hdel
      rw [hfsEq, foldLogDeletion_lookup_other reason now _ _ e.1 hdel]
      exact hloop.1 e (List.mem_filter.mpr ⟨he, hlog⟩) hdel
    · rw [hfsEq, foldLogDeletion_lookup_del]
      rw [forgetLoop_frame sc ty (dayFiles fs) fs delName
        (fun e _ hdel' hh => hdel' hh.symm)]
    · intro n hn
      have hnd' : ¬ n = delName := by
        intro hh
        rw [hh] at hn
        exact hn (by decide)
      rw [hfsEq, foldLogDeletion_lookup_other reason now _ _ n hnd']
      refine forgetLoop_frame sc ty (dayFiles fs) fs n (fun e he _ hh => ?_)
      have : isLogfmt e.1 := (List.mem_filter.mp he).2
      rw [← hh] at this
      exact hn this
    · unfold forget
      rw [if_neg hd, hr2]
      split <;> rfl

def c3Sc : Str := "x".toList

def c3Ty : Str := "blocker".toList

def c3Now : Str := "2026-01-03T12:00:00.000Z".toList

def c3Reason : Str := "obsolete".toList

def c3MemA : Memory :=
  ⟨"2026-01-01T00:00:00.000Z".toList, "blocker".toList, "x".toList, "ci broken".toList,
    none, none⟩

def c3MemB : Memory :=
  ⟨"2026-01-02T00:00:00.000Z".toList, "decision".toList, "x".toList, "keep this".toList,
    none, none⟩

def c3MemC : Memory :=
  ⟨"2026-01-02T01:00:00.000Z".toList, "blocker".toList, "x".toList, "flaky tests".toList,
    none, none⟩

/-- The first day file of the C3 witness store: one matching record. -/
def c3E1 : Str × Str := ("2026-01-01.logfmt".toList, encodeMemory c3MemA ++ "\n".toList)

/-- The second day file: one non-matching and one matching record. -/
def c3E2 : Str × Str :=
  ("2026-01-02.logfmt".toList,
    encodeMemory c3MemB ++ "\n".toList ++ encodeMemory c3MemC ++ "\n".toList)

def c3Fs : FS := [c3E1, c3E2]

/-- Witness for C3 at a concrete two-day store with matches in both
files: the non-trivial branch of the theorem applies. -/
theorem c3_forget_semantics_witness :
    fsLookup (forget c3Sc c3Ty c3Reason c3Now c3Fs).2 c3E1.1 =
      some (joinWithC '\n' (keptLines c3Sc c3Ty c3E1.2)) ∧
    (fsLookup (forget c3Sc c3Ty c3Reason c3Now c3Fs).2 delName).getD [] =
      (fsLookup c3Fs delName).getD [] ++
        ((removedRecords c3Sc c3Ty c3Fs).map (fun m => auditLine c3Now m c3Reason)).flatten ∧
    (forget c3Sc c3Ty c3Reason c3Now c3Fs).1 =
      (if (removedRecords c3Sc c3Ty c3Fs).length = 0 then ForgetResult.notFound
       else .deleted (removedRecords c3Sc c3Ty c3Fs).length) := by
  have h := (c3_forget_semantics c3Sc c3Ty c3Reason c3Now c3Fs).2 (by decide) (by decide)
  exact ⟨h.1 c3E1 (by decide) (by decide) (by decide), h.2.1, h.2.2.2⟩

/-! ## Claim C10: failed updates change nothing -/

/-- C10: whenever the update operation reports anything but a successful
update — no files, no (scope, type) match, ambiguity without a query, or
a query under which no match scores above zero — the store is returned
exactly as it was: no day file is rewritten and no deletion-audit line
is appended. -/
theorem c10_update_error_preserves_fs (a : UpdateArgs) (nowD nowU : Str) (fs : FS)
    (h : ¬ (update a nowD nowU fs).1 = .updated) :
    (update a nowD nowU fs).2 = fs := by
  by_cases hd : dayFiles fs = []
  · unfold update; rw [if_pos hd]
  · rcases hm : collectMatches a.scope a.ty fs with _ | ⟨t0, _ | ⟨t1, rest⟩⟩
    · unfold update; rw [if_neg hd, hm]
    · exfalso
      apply h
      have hu : update a nowD nowU fs = commitUpdate a nowD nowU fs t0 := by
        unfold update; rw [if_neg hd, hm]
      rw [hu]
      rfl
    · rcases hq : a.query with _ | q
      · unfold update; rw [if_neg hd, hm, hq]
      · rcases hs : scoredMatches q (t0 :: t1 :: rest) with _ | ⟨top, rrest⟩
        · have hu : update a nowD nowU fs =
              (.noQueryMatch (t0 :: t1 :: rest).length, fs) := by
            unfold update; rw [if_neg hd, hm, hq]; simp only [hs]
          rw [hu]
        · exfalso
          apply h
          have hu : update a nowD nowU fs = commitUpdate a nowD nowU fs top.1 := by
            unfold update; rw [if_neg hd, hm, hq]; simp only [hs]
          rw [hu]
          rfl

def c10Args : UpdateArgs :=
  ⟨"nosuchscope".toList, "decision".toList, "new text".toList, none, none, none⟩

/-- Witness for C10 at a concrete store where the update finds no
(scope, type) match. -/
theorem c10_update_error_preserves_fs_witness :
    (update c10Args c2NowD c2NowU c2Fs).2 = c2Fs :=
  c10_update_error_preserves_fs c10Args c2NowD c2NowU c2Fs (by decide)

/-! ## Claim C9: audit-file isolation -/

theorem dayFilesMinusDel_of_filtered (fs : FS) :
    (dayFiles (fs.filter (fun e => ¬ e.1 = delName))).filter (fun e => ¬ e.1 = delName) =
      (dayFiles fs).filter (fun e => ¬ e.1 = delName) := by
  unfold dayFiles
  rw [List.filter_filter, List.filter_filter, List.filter_filter]
  refine List.filter_congr ?_
  intro e _
  cases hq : decide (¬ e.1 = delName) <;> cases hp : isLogfmt e.1 <;> simp [hq, hp]

/-- C9: the deletion-audit file is excluded from every memory scan (so no
audit record is ever returned as a memory, even though audit lines carry
the ts, type and scope fields needed to decode), and the only change the
mutating operations make to it is appending audit lines: update either
leaves it alone or appends the single audit record of the superseded
version, forget appends exactly its per-removal audit lines. The
read-only operations (recall and list) consume `getAllMemories` and
return no store, so the scan-exclusion conjunct covers them. -/
theorem c9_audit_isolation :
    (∀ fs : FS, getAllMemories fs =
      getAllMemories (fs.filter (fun e => ¬ e.1 = delName))) ∧
    (∀ (a : UpdateArgs) (nowD nowU : Str) (fs : FS),
      (fsLookup (update a nowD nowU fs).2 delName).getD [] =
          (fsLookup fs delName).getD [] ∨
        ∃ m : Memory, (fsLookup (update a nowD nowU fs).2 delName).getD [] =
          (fsLookup fs delName).getD [] ++
            auditLine nowD m ("Updated to: ".toList ++ a.content)) ∧
    (∀ (sc ty reason now : Str) (fs : FS), ∃ dels : List Memory,
      (fsLookup (forget sc ty reason now fs).2 delName).getD [] =
        (fsLookup fs delName).getD [] ++
          (dels.map (fun m => auditLine now m reason)).flatten) ∧
    ((parseLine (auditLine c3Now c3MemA c3Reason)).isSome = true ∧
      getAllMemories [(delName, auditLine c3Now c3MemA c3Reason)] = []) := by
  refine ⟨?_, ?_, ?_, by decide, by decide⟩
  · intro fs
    unfold getAllMemories
    rw [dayFilesMinusDel_of_filtered]
  · intro a nowD nowU fs
    by_cases hd : dayFiles fs = []
    · left
      have : update a nowD nowU fs = (.noFiles, fs) := by unfold update; rw [if_pos hd]
      rw [this]
    · rcases hm : collectMatches a.scope a.ty fs with _ | ⟨t0, _ | ⟨t1, rest⟩⟩
      · left
        have : update a nowD nowU fs = (.notFound, fs) := by unfold update; rw [if_neg hd, hm]
        rw [this]
      · right
        refine ⟨t0.memory, ?_⟩
        have hu : update a nowD nowU fs = commitUpdate a nowD nowU fs t0 := by
          unfold update; rw [if_neg hd, hm]
        have hne : ¬ t0.filepath = delName :=
          collectMatches_filepath_ne_delName a.scope a.ty fs t0
            (by rw [hm]; exact List.mem_cons_self t0 [])
        rw [hu]
        exact (commitUpdate_spec a nowD nowU fs t0 hne).2.1
      · rcases hq : a.query with _ | q
        · left
          have : update a nowD nowU fs = (.ambiguous (t0 :: t1 :: rest).length, fs) := by
            unfold update; rw [if_neg hd, hm, hq]
          rw [this]
        · rcases hs : scoredMatches q (t0 :: t1 :: rest) with _ | ⟨top, rrest⟩
          · left
            have : update a nowD nowU fs = (.noQueryMatch (t0 :: t1 :: rest).length, fs) := by
              unfold update; rw [if_neg hd, hm, hq]; simp only [hs]
            rw [this]
          · right
            refine ⟨top.1.memory, ?_⟩
            have hu : update a nowD nowU fs = commitUpdate a nowD nowU fs top.1 := by
              unfold update; rw [if_neg hd, hm, hq]; simp only [hs]
            have htop := scoredMatches_mem q _ top (by rw [hs]; exact List.mem_cons_self _ _)
            have hne : ¬ top.1.filepath = delName :=
              collectMatches_filepath_ne_delName a.scope a.ty fs top.1 (hm ▸ htop.1)
            rw [hu]
            exact (commitUpdate_spec a nowD nowU fs top.1 hne).2.1
  · intro sc ty reason now fs
    by_cases hd : dayFiles fs = []
    · refine ⟨[], ?_⟩
      have : forget sc ty reason now fs = (.noFiles, fs) := by unfold forget; rw [if_pos hd]
      rw [this]
      simp
    · refine ⟨(forgetLoop sc ty (dayFiles fs) fs).2, ?_⟩
      have hfsEq : (forget sc ty reason now fs).2 =
          (forgetLoop sc ty (dayFiles fs) fs).2.foldl (fun f m => logDeletion f now m reason)
            (forgetLoop sc ty (dayFiles fs) fs).1 := by
        unfold forget
        rw [if_neg hd]
        split <;> rfl
      rw [hfsEq, foldLogDeletion_lookup_del]
      rw [forgetLoop_frame sc ty (dayFiles fs) fs delName (fun e _ hdel' hh => hdel' hh.symm)]

/-! ## Object-merge lemmas -/

theorem getLast?_cons_ne_none {α : Type} (a : α) (l : List α) :
    ¬ (a :: l).getLast? = none := by
  induction l generalizing a with
  | nil => simp
  | cons b t ih => rw [List.getLast?_cons_cons]; exact ih b

/-- Looking up a key after folding entry insertions: the last inserted
value for that key wins; keys never inserted fall through to the base
object. -/
theorem foldl_aupsert_lookup (ps : List (Str × JVal)) :
    ∀ (o : Obj) (k : Str),
      objLookup (ps.foldl (fun acc e => aupsert acc e.1 e.2) o) k =
        (match (ps.filter (fun e => e.1 = k)).getLast? with
         | some e => some e.2
         | none => objLookup o k) := by
  induction ps with
  | nil => intro o k; rfl
  | cons p ps ih =>
    intro o k
    rw [List.foldl_cons, ih]
    by_cases hp : p.1 = k
    · rw [List.filter_cons, if_pos (by simpa using hp)]
      rcases hps : ps.filter (fun e => e.1 = k) with _ | ⟨f, fs⟩
      · rw [hps]
        show objLookup (aupsert o p.1 p.2) k = some p.2
        rw [hp]
        exact alookup_aupsert_self o k p.2
      · rw [hps, List.getLast?_cons_cons]
        rcases hgl : (f :: fs).getLast? with _ | g
        · exact absurd hgl (getLast?_cons_ne_none f fs)
        · rfl
    · rw [List.filter_cons, if_neg (by simpa using hp)]
      rcases hgl : (ps.filter (fun e => e.1 = k)).getLast? with _ | g
      · rw [hgl]
        exact alookup_aupsert_other o p.1 k p.2 (fun hh => hp hh.symm)
      · rw [hgl]

/-! ## Claim C7: payload merge vs envelope -/

def c7Now : Str := "2026-02-21T10:00:00.000Z".toList

/-- C7 counterexample: the claim says payload fields never overwrite the
fixed envelope fields, but `buildLoggerEvent` spreads the payload *after*
the envelope in the object literal, so a payload `ts` replaces the
envelope's `ts`. -/
theorem c7_payload_overwrites_envelope :
    objLookup (buildLoggerEvent ("chat_message".toList) c7Now ("ses_123".toList) none none none
        [("ts".toList, .str ("1999-01-01T00:00:00.000Z".toList))]) ("ts".toList) =
      some (.str ("1999-01-01T00:00:00.000Z".toList)) ∧
    ¬ objLookup (buildLoggerEvent ("chat_message".toList) c7Now ("ses_123".toList) none none none
        [("ts".toList, .str ("1999-01-01T00:00:00.000Z".toList))]) ("ts".toList) =
      some (.str c7Now) := by
  refine ⟨by decide, by decide⟩

/-- C7 amended: every emitted event carries the eight envelope fields with
the payload merged at the top level, but the payload is spread last, so
an envelope key keeps the envelope's value exactly when the payload
avoids that key, and a payload key that collides with an envelope key
overwrites it with the payload's (last) value. -/
theorem c7_envelope_merge (eventName now sid : Str) (par task agent : Option Str)
    (payload : Obj) (k : Str) :
    ((∀ e ∈ payload, ¬ e.1 = k) →
      objLookup (buildLoggerEvent eventName now sid par task agent payload) k =
        objLookup (loggerEnvelope eventName now sid par task agent) k) ∧
    (∀ g, (payload.filter (fun e => e.1 = k)).getLast? = some g →
      objLookup (buildLoggerEvent eventName now sid par task agent payload) k = some g.2) := by
  constructor
  · intro h
    unfold buildLoggerEvent
    rw [foldl_aupsert_lookup]
    have hnil : payload.filter (fun e => e.1 = k) = [] :=
      List.filter_eq_nil_iff.mpr (fun e he => by simpa using h e he)
    rw [hnil]
    rfl
  · intro g hg
    unfold buildLoggerEvent
    rw [foldl_aupsert_lookup, hg]

/-- Witness for C7 amended at concrete events: a non-colliding payload
keeps the envelope's `session_id`, and a colliding payload key `ts`
takes the payload's value. -/
theorem c7_envelope_merge_witness :
    objLookup (buildLoggerEvent ("tool_execute_before".toList) c7Now ("ses_123".toList) none
        (some ("task_77".toList)) (some ("codex".toList))
        [("tool".toList, .str ("read".toList))]) ("session_id".toList) =
      objLookup (loggerEnvelope ("tool_execute_before".toList) c7Now ("ses_123".toList) none
        (some ("task_77".toList)) (some ("codex".toList))) ("session_id".toList) ∧
    objLookup (buildLoggerEvent ("tool_execute_before".toList) c7Now ("ses_123".toList) none
        (some ("task_77".toList)) (some ("codex".toList))
        [("ts".toList, .str ("overwritten".toList))]) ("ts".toList) =
      some (.str ("overwritten".toList)) := by
  constructor
  · exact (c7_envelope_merge ("tool_execute_before".toList) c7Now ("ses_123".toList) none
      (some ("task_77".toList)) (some ("codex".toList))
      [("tool".toList, .str ("read".toList))] ("session_id".toList)).1 (by decide)
  · exact (c7_envelope_merge ("tool_execute_before".toList) c7Now ("ses_123".toList) none
      (some ("task_77".toList)) (some ("codex".toList))
      [("ts".toList, .str ("overwritten".toList))] ("ts".toList)).2
      ("ts".toList, .str ("overwritten".toList)) (by decide)

/-! ## Claim C8: root session id -/

/-- A three-deep session chain: `sesC` under `sesB` under the root
`sesA`. -/
def c8Par : Str → Option Str := fun s =>
  if s = "sesC".toList then some ("sesB".toList)
  else if s = "sesB".toList then some ("sesA".toList)
  else none

/-- C8 counterexample: for an event of `sesC`, whose parent `sesB` itself
has parent `sesA`, the emitted `root_session_id` is `sesB` — the
immediate parent — while the nearest ancestor with no parent along the
chain is `sesA`; the claim as stated is false for chains of depth two. -/
theorem c8_root_skips_ancestors :
    objLookup (eventFor c8Par ("tool_execute_before".toList) c7Now ("sesC".toList) none none [])
        ("root_session_id".toList) = some (.str ("sesB".toList)) ∧
    rootVia c8Par 2 ("sesC".toList) = "sesA".toList ∧
    rootVia c8Par 3 ("sesC".toList) = "sesA".toList ∧
    ¬ ("sesB".toList : Str) = "sesA".toList := by
  refine ⟨by decide, by decide, by decide, by decide⟩

/-- The envelope's `root_session_id` value. -/
theorem loggerEnvelope_root (eventName now sid : Str) (par task agent : Option Str) :
    objLookup (loggerEnvelope eventName now sid par task agent) ("root_session_id".toList) =
      some (.str (rootOneStep sid par)) := by
  simp +decide [loggerEnvelope, objLookup, alookup_cons]

/-- C8 amended: `root_session_id` is computed in one step as
`parentSessionID || sessionID` — the session's immediate (non-empty)
parent id when one exists, its own id otherwise. This coincides with
the nearest parentless ancestor of the chain only when the session has
no parent or its parent is itself parentless. -/
theorem c8_root_one_step (par : Str → Option Str) (eventName now sid : Str)
    (task agent : Option Str) :
    objLookup (eventFor par eventName now sid task agent []) ("root_session_id".toList) =
      some (.str (rootOneStep sid (par sid))) ∧
    (par sid = none → rootOneStep sid (par sid) = rootVia par 1 sid) ∧
    (∀ p, par sid = some p → ¬ p = [] → par p = none →
      rootOneStep sid (par sid) = rootVia par 2 sid) := by
  refine ⟨?_, ?_, ?_⟩
  · unfold eventFor buildLoggerEvent
    rw [List.foldl_nil]
    exact loggerEnvelope_root eventName now sid (par sid) task agent
  · intro h
    rw [h]
    unfold rootVia
    rw [h]
    rfl
  · intro p hp hne hpp
    have h2 : rootVia par 2 sid = rootVia par 1 p := by
      unfold rootVia
      rw [hp]
      rfl
    have h1 : rootVia par 1 p = p := by
      unfold rootVia
      rw [hpp]
    rw [hp, h2, h1]
    show (if p = [] then sid else p) = p
    rw [if_neg hne]

/-- Witness for C8 amended at the concrete chain, for the depth-one
session `sesB` where the one-step root agrees with the chain root. -/
theorem c8_root_one_step_witness :
    objLookup (eventFor c8Par ("chat_message".toList) c7Now ("sesB".toList) none none [])
        ("root_session_id".toList) =
      some (.str (rootOneStep ("sesB".toList) (c8Par ("sesB".toList)))) ∧
    rootOneStep ("sesB".toList) (c8Par ("sesB".toList)) = rootVia c8Par 2 ("sesB".toList) := by
  have h := c8_root_one_step c8Par ("chat_message".toList) c7Now ("sesB".toList) none none
  exact ⟨h.1, h.2.2 ("sesA".toList) (by decide) (by decide) (by decide)⟩

/-! ## Claim C6: session-tree event routing -/

/-- C6: for every logged event whose session resolves to a SessionInfo
with a parent, the line is appended (read-then-concatenate) to
`sessions/<parent-slug>/<agentHint-or-subagent>-<sessionId>.jsonl`; for
a session with no parent, to `sessions/<own-slug>/main.jsonl`; no other
file changes. -/
theorem c6_session_routing (lk : Str → Option RawSession) (agents : Str → Option Str)
    (sid line : Str) (fs : FS) :
    (∀ p, (resolveInfo lk sid).parentID = some p →
      sessionLogPath lk agents sid =
        "sessions/".toList ++ (resolveInfo lk p).slug ++ "/".toList ++
          ((agents sid).getD ("subagent".toList)) ++ "-".toList ++ sid ++ ".jsonl".toList) ∧
    ((resolveInfo lk sid).parentID = none →
      sessionLogPath lk agents sid =
        "sessions/".toList ++ (resolveInfo lk sid).slug ++ "/main.jsonl".toList) ∧
    fsLookup (appendSessionLog true lk agents sid line fs) (sessionLogPath lk agents sid) =
      some ((fsLookup fs (sessionLogPath lk agents sid)).getD [] ++ line ++ "\n".toList) ∧
    (∀ n, ¬ n = sessionLogPath lk agents sid →
      fsLookup (appendSessionLog true lk agents sid line fs) n = fsLookup fs n) := by
  refine ⟨?_, ?_, ?_, ?_⟩
  · intro p hp
    unfold sessionLogPath
    rw [hp]
  · intro hp
    unfold sessionLogPath
    rw [hp]
  · unfold appendSessionLog
    rw [if_pos rfl, fsAppend_lookup_self, List.append_assoc]
  · intro n hn
    unfold appendSessionLog
    rw [if_pos rfl]
    exact fsAppend_lookup_other fs _ n _ hn

/-- The session-lookup table of the repository's own subagent-routing
test: `ses_sub` (titled `Explore auth`) under `ses_main` (titled
`Fix Auth Bug`), both created 2026-02-21. -/
def c6Lk : Str → Option RawSession := fun sid =>
  if sid = "ses_sub".toList then
    some ⟨"ses_sub".toList, "Explore auth".toList, some ("ses_main".toList),
      "2026-02-21".toList⟩
  else if sid = "ses_main".toList then
    some ⟨"ses_main".toList, "Fix Auth Bug".toList, none, "2026-02-21".toList⟩
  else none

def c6Agents : Str → Option Str := fun sid =>
  if sid = "ses_sub".toList then some ("explore".toList) else none

/-- The serialized JSON of one event, abstract here. -/
def c6Line : Str := "serialized chat_message event json".toList

/-- Witness for C6 at the repository-test scenario: the child session's
event line lands in `sessions/2026-02-21-fix-auth-bug/explore-ses_sub.jsonl`
and the parentless session's in
`sessions/2026-02-21-fix-auth-bug/main.jsonl`. -/
theorem c6_session_routing_witness :
    sessionLogPath c6Lk c6Agents ("ses_sub".toList) =
      ("sessions/2026-02-21-fix-auth-bug/explore-ses_sub.jsonl").toList ∧
    sessionLogPath c6Lk c6Agents ("ses_main".toList) =
      ("sessions/2026-02-21-fix-auth-bug/main.jsonl").toList ∧
    fsLookup (appendSessionLog true c6Lk c6Agents ("ses_sub".toList) c6Line [])
        (sessionLogPath c6Lk c6Agents ("ses_sub".toList)) =
      some ((fsLookup ([] : FS) (sessionLogPath c6Lk c6Agents ("ses_sub".toList))).getD [] ++
        c6Line ++ "\n".toList) := by
  have h := c6_session_routing c6Lk c6Agents ("ses_sub".toList) c6Line []
  have hmain := c6_session_routing c6Lk c6Agents ("ses_main".toList) c6Line []
  refine ⟨?_, ?_, h.2.2.1⟩
  · rw [h.1 ("ses_main".toList) (by decide)]
    decide
  · rw [hmain.2.1 (by decide)]
    decide
